import Mathlib

/-!
Verification of the keyword-to-URL mapper (src/keywordmapper.py).

Shallow embedding: Python strings are Lean `String` (operated on via `List Char`),
Python floats are `ℚ` (the score arithmetic is plain field arithmetic),
a Screaming-Frog row (a `csv.DictReader` dict) is an association list
`List (String × String)`, and a candidate record whose field extraction can
raise is `Except String Row` (the `Except.error` case models a raising record;
`calculate_match_score` catches it, as the source's `try/except` does).
Character classes model the CPython regex classes restricted to ASCII.
-/

namespace KeywordMapper

/-- Characters of the separator class in `re.sub(r'[/_\-\|&]+', ' ', text)`. -/
def isSep (c : Char) : Bool :=
  c = '/' || c = '_' || c = '-' || c = '|' || c = '&'

/-- Model of the regex class `\s` and of `str.strip()` / `str.split()` whitespace (ASCII). -/
def isSpaceChar (c : Char) : Bool :=
  c = ' ' || c = '\t' || c = '\n' || c = '\r' || c = '\x0b' || c = '\x0c'

/-- Model of the regex class `\w` (ASCII): letters, digits and underscore. -/
def isWordChar (c : Char) : Bool :=
  c.isAlphanum || c = '_'

/-- Replace every maximal run of characters satisfying `p` by a single space:
the effect of `re.sub(r'[class]+', ' ', text)`. -/
def collapseRuns (p : Char → Bool) : List Char → List Char
  | [] => []
  | [c] => if p c then [' '] else [c]
  | c :: d :: cs =>
    if p c then
      (if p d then collapseRuns p (d :: cs) else ' ' :: collapseRuns p (d :: cs))
    else c :: collapseRuns p (d :: cs)

/-- Drop trailing whitespace (the right half of Python `str.strip()`). -/
def stripEnd (l : List Char) : List Char :=
  (l.reverse.dropWhile isSpaceChar).reverse

/-- Model of Python `str.strip()` on the character list. -/
def stripWs (l : List Char) : List Char :=
  stripEnd (l.dropWhile isSpaceChar)

/-- One character of `re.sub(r'[^\w\s]', ' ', text)`: non-word non-space becomes a space. -/
def subPunct (c : Char) : Char :=
  if !(isWordChar c) && !(isSpaceChar c) then ' ' else c

/-- Model of `SimpleKeywordMapper.normalize_text` (src/keywordmapper.py lines 80-97):
lowercase, collapse separator runs to spaces, replace punctuation by spaces,
strip and collapse whitespace. -/
def normalize_text (text : String) : String :=
  if text = "" then ""
  else
    let t1 := text.data.map Char.toLower
    let t2 := collapseRuns isSep t1
    let t3 := t2.map subPunct
    let t4 := collapseRuns isSpaceChar (stripWs t3)
    String.mk t4

/-- Accumulator form of Python `str.split()` (split on whitespace runs, no empty parts);
`acc` holds the current word reversed. -/
def splitWsAux : List Char → List Char → List String
  | [], acc => if acc.isEmpty then [] else [String.mk acc.reverse]
  | c :: cs, acc =>
    if isSpaceChar c then
      (if acc.isEmpty then splitWsAux cs [] else String.mk acc.reverse :: splitWsAux cs [])
    else splitWsAux cs (c :: acc)

/-- Model of Python `str.split()` with no arguments. -/
def pySplit (s : String) : List String :=
  splitWsAux s.data []

/-- Does `pat` begin the list `s`? -/
def beginsWith : List Char → List Char → Bool
  | [], _ => true
  | _ :: _, [] => false
  | p :: ps, c :: cs => p = c && beginsWith ps cs

/-- Substring containment on character lists (Python `pat in s` for strings). -/
def containsSub (pat : List Char) : List Char → Bool
  | [] => beginsWith pat []
  | c :: cs => beginsWith pat (c :: cs) || containsSub pat cs

/-- Model of the Python membership test `needle in hay` for strings. -/
def pyIn (needle hay : String) : Bool :=
  containsSub needle.data hay.data

/-- If `pat` begins `s`, return the remainder of `s` after it. -/
def matchAt : List Char → List Char → Option (List Char)
  | [], s => some s
  | _ :: _, [] => none
  | p :: ps, c :: cs => if p = c then matchAt ps cs else none

/-- Fueled worker for `pyReplace`; the fuel is the length of the scanned list,
which bounds the number of steps (each step consumes at least one character
because every pattern passed to it is non-empty). -/
def replaceFuel (pat rep : List Char) : Nat → List Char → List Char
  | _, [] => []
  | 0, s => s
  | n + 1, c :: cs =>
    match matchAt pat (c :: cs) with
    | some rest => rep ++ replaceFuel pat rep n rest
    | none => c :: replaceFuel pat rep n cs

/-- Model of Python `s.replace(pat, rep)` for a non-empty `pat`: replace every
non-overlapping occurrence, scanning left to right. -/
def pyReplace (s pat rep : String) : String :=
  String.mk (replaceFuel pat.data rep.data s.data.length s.data)

/-- Model of Python `s.strip()`. -/
def pyStrip (s : String) : String :=
  String.mk (stripWs s.data)

/-- Characters allowed in a URL scheme after the first (CPython `scheme_chars`). -/
def schemeChar (c : Char) : Bool :=
  c.isAlphanum || c = '+' || c = '-' || c = '.'

/-- Strip a valid `scheme:` head from a URL, as CPython `urlsplit` does. -/
def splitScheme (s : List Char) : List Char :=
  let pre := s.takeWhile (fun c => c ≠ ':')
  if pre.length < s.length then
    match pre with
    | [] => s
    | c :: rest => if c.isAlpha && rest.all schemeChar then s.drop (pre.length + 1) else s
  else s

/-- CPython `urlparse._splitparams`: drop the `;params` part of the last path segment. -/
def splitParams (p : List Char) : List Char :=
  if p.contains ';' then
    if p.contains '/' then
      let front := (p.reverse.dropWhile (fun c => c ≠ '/')).reverse
      let seg := (p.reverse.takeWhile (fun c => c ≠ '/')).reverse
      if seg.contains ';' then front ++ seg.takeWhile (fun c => c ≠ ';') else p
    else p.takeWhile (fun c => c ≠ ';')
  else p

/-- Model of CPython `urllib.parse.urlparse`, restricted to the `(netloc, path)`
components that `extract_url_components` reads: strip leading control/space
characters, remove tab/CR/LF, strip a valid scheme, take the `//netloc` up to
the next `/`, `?` or `#`, cut fragment, query and params off the path.
`none` models the `ValueError` CPython raises for a netloc containing `[`
without `]` or vice versa (validation of well-bracketed IPv6 hosts is not
modelled and is treated as success). -/
def pyUrlparse (url : String) : Option (String × String) :=
  let u1 := url.data.dropWhile (fun c => c.toNat ≤ 32)
  let u2 := u1.filter (fun c => c ≠ '\t' && c ≠ '\r' && c ≠ '\n')
  let u3 := splitScheme u2
  let nr : List Char × List Char :=
    match u3 with
    | '/' :: '/' :: r =>
      (r.takeWhile (fun c => c ≠ '/' && c ≠ '?' && c ≠ '#'),
       r.dropWhile (fun c => c ≠ '/' && c ≠ '?' && c ≠ '#'))
    | _ => ([], u3)
  if (nr.1.contains '[' && !(nr.1.contains ']')) || (nr.1.contains ']' && !(nr.1.contains '[')) then
    none
  else
    let p1 := nr.2.takeWhile (fun c => c ≠ '#')
    let p2 := p1.takeWhile (fun c => c ≠ '?')
    some (String.mk nr.1, String.mk (splitParams p2))

/-- Model of `SimpleKeywordMapper.extract_url_components` (lines 99-112): empty
input and parse failures give `""`; otherwise the host is rewritten by
`.replace('www.', '').replace('.com', '').replace('.', ' ')`, the path by
`.replace('/', ' ').replace('-', ' ').replace('_', ' ')`, and the two parts are
joined with a space and normalized. -/
def extract_url_components (url : String) : String :=
  if url = "" then ""
  else
    match pyUrlparse url with
    | none => ""
    | some (netloc, path) =>
      let domain_parts := pyReplace (pyReplace (pyReplace netloc "www." "") ".com" "") "." " "
      let path_parts := pyReplace (pyReplace (pyReplace path "/" " ") "-" " ") "_" " "
      normalize_text (domain_parts ++ " " ++ path_parts)

/-- One row of the Screaming Frog export: a `csv.DictReader` dict as an
association list from column name to value. -/
abbrev Row := List (String × String)

/-- A candidate record as `calculate_match_score` sees it: either a readable
row, or a record whose field extraction raises (the `Except.error` case models
the exception caught by the source's `try/except`, lines 122-137). -/
abbrev Record := Except String Row

/-- Python `row.get(key, '')` (also used for `row[key]` truthiness: a missing
key and an empty value are both falsy). -/
def rowGet (row : Row) (key : String) : String :=
  (row.lookup key).getD ""

/-- The ordered URL column aliases of lines 125 and 191. -/
def addrAliases : List String :=
  ["Address", "\uFEFFAddress", "\"Address\"", "address", "URL"]

/-- The alias loop of lines 124-128 / 190-194: first alias present with a
non-empty value, stripped; `""` when none matches. -/
def resolveUrl (row : Row) : String :=
  match addrAliases.find? (fun k => rowGet row k != "") with
  | some k => pyStrip (rowGet row k)
  | none => ""

/-- The normalized field texts extracted from a row (lines 124-134). -/
structure Content where
  url : String
  title : String
  h1 : String
  h2 : String
  meta_desc : String
  meta_keywords : String
  url_components : String
deriving Repr, DecidableEq

/-- Field extraction from a readable row. -/
def contentOf (row : Row) : Content :=
  let url := resolveUrl row
  { url := url
  , title := normalize_text (rowGet row "Title 1")
  , h1 := normalize_text (rowGet row "H1-1")
  , h2 := normalize_text (rowGet row "H2-1")
  , meta_desc := normalize_text (rowGet row "Meta Description 1")
  , meta_keywords := normalize_text (rowGet row "Meta Keywords 1")
  , url_components := extract_url_components url }

/-- The `try` block of lines 122-137: extraction either succeeds or raises. -/
def extract_content : Record → Except String Content
  | Except.error e => Except.error e
  | Except.ok row => Except.ok (contentOf row)

/-- The weighted field list of lines 140-147, in source order. -/
def content_fields (c : Content) : List (String × ℚ) :=
  [(c.title, 5.0), (c.h1, 4.0), (c.url_components, 3.0),
   (c.meta_desc, 2.0), (c.h2, 1.5), (c.meta_keywords, 2.5)]

/-- One iteration of the scoring loop of lines 152-165: skip empty content,
count keyword words contained in the content, and add
`(word_matches / len(keyword_words)) * 10.0 * weight` when positive. -/
def fieldStep (keyword_words : List String) (total : ℚ) (cw : String × ℚ) : ℚ :=
  if cw.1 = "" then total
  else
    let word_matches := (keyword_words.filter (fun w => pyIn w cw.1)).length
    if 0 < word_matches then
      total + ((word_matches : ℚ) / (keyword_words.length : ℚ)) * 10.0 * cw.2
    else total

/-- Model of `SimpleKeywordMapper.calculate_match_score` (lines 114-171). -/
def calculate_match_score (keyword : String) (r : Record) : ℚ :=
  let keyword_words := pySplit (normalize_text keyword)
  if keyword_words = [] then 0
  else
    match extract_content r with
    | Except.error _ => 0
    | Except.ok c => (content_fields c).foldl (fieldStep keyword_words) 0

deriving instance DecidableEq for Except

/-- The `best_match` dict built at lines 196-203. -/
structure Candidate where
  url : String
  score : ℚ
  title : String
  h1 : String
  meta_description : String
  row_data : Record
deriving Repr, DecidableEq

/-- Build the `best_match` dict from a record (lines 190-203; the URL is
resolved through the alias list). The `Except.error` case is unreachable in
`find_best_matches` because a raising record scores `0`. -/
def mkCandidate (r : Record) (score : ℚ) : Candidate :=
  match r with
  | Except.ok row =>
    { url := resolveUrl row, score := score
    , title := rowGet row "Title 1", h1 := rowGet row "H1-1"
    , meta_description := rowGet row "Meta Description 1", row_data := r }
  | Except.error _ =>
    { url := "", score := score, title := "", h1 := "", meta_description := "", row_data := r }

/-- The `self.final_mappings` dict: `none` = no entry, `some none` = stored
Python `None` (unmatched), `some (some c)` = accepted match. -/
abbrev Store := String → Option (Option Candidate)

def emptyStore : Store := fun _ => none

/-- Dict assignment `final_mappings[k] = v`. -/
def storeSet (store : Store) (k : String) (v : Option Candidate) : Store :=
  fun x => if x = k then some v else store x

/-- Lines 184-203: score a record and update `(best_score, best_match)` when
the score strictly exceeds the current best. -/
def scoreStep (keyword : String) (acc : ℚ × Option Candidate) (r : Record) : ℚ × Option Candidate :=
  let score := calculate_match_score keyword r
  if acc.1 < score then (score, some (mkCandidate r score)) else acc

/-- The inner record scan as a fold of `scoreStep`. -/
def scanBest (keyword : String) (records : List Record) (acc : ℚ × Option Candidate) :
    ℚ × Option Candidate :=
  records.foldl (scoreStep keyword) acc

/-- The running maximum alone (first component of `scanBest`). -/
def bestFrom (keyword : String) (b : ℚ) (records : List Record) : ℚ :=
  records.foldl
    (fun a r => if a < calculate_match_score keyword r then calculate_match_score keyword r else a) b

def bestScore (keyword : String) (records : List Record) : ℚ :=
  (scanBest keyword records (0, none)).1

def bestMatch (keyword : String) (records : List Record) : Option Candidate :=
  (scanBest keyword records (0, none)).2

/-- The threshold check of lines 207-212: store `best_match` when it is
non-None and `best_score >= 5.0`, else store `None`. -/
def thresholdDecision (acc : ℚ × Option Candidate) : Option Candidate :=
  if acc.2.isSome ∧ 5 ≤ acc.1 then acc.2 else none

/-- The per-keyword record loop of lines 183-212, exactly as indented in the
source: the threshold check and the store write sit INSIDE the record loop,
so the store is written once per record (overwriting) and not at all when
`records` is empty. -/
def keywordLoop (keyword : String) :
    List Record → ℚ × Option Candidate → Store → (ℚ × Option Candidate) × Store
  | [], acc, store => (acc, store)
  | r :: rest, acc, store =>
    let acc2 := scoreStep keyword acc r
    let store2 := storeSet store keyword (thresholdDecision acc2)
    keywordLoop keyword rest acc2 store2

/-- Model of `SimpleKeywordMapper.find_best_matches` (lines 173-215). -/
def find_best_matches (keywords : List String) (records : List Record) : Store :=
  keywords.foldl (fun store kw => (keywordLoop kw records (0, none) store).2) emptyStore

/-- Python slice `s[:n]` (by code points). -/
def pyTrunc (n : Nat) (s : String) : String :=
  String.mk (s.data.take n)

/-- Round to the nearest integer, ties to even: model of the rounding used by
CPython float formatting (the source formats scores with an f-string; exact
binary-float rounding is approximated by rational half-even rounding). -/
def roundHalfEven (q : ℚ) : ℤ :=
  let f := ⌊q⌋
  if q - f < 1 / 2 then f
  else if (1 : ℚ) / 2 < q - f then f + 1
  else if 2 ∣ f then f else f + 1

def twoDigits (n : ℕ) : String :=
  (if n < 10 then "0" else "") ++ toString n

/-- Model of the Python f-string `f"{score:.2f}"`. -/
def pyFormat2 (q : ℚ) : String :=
  let cents := roundHalfEven (q * 100)
  let sign := if cents < 0 then "-" else ""
  sign ++ toString (cents.natAbs / 100) ++ "." ++ twoDigits (cents.natAbs % 100)

/-- One CSV row written by `save_results`. -/
structure OutRow where
  keyword : String
  matched_url : String
  match_score : String
  page_title : String
  h1_heading : String
  meta_description : String
  match_quality : String
deriving Repr, DecidableEq

/-- The loop body of `save_results` (lines 228-269): the row written for one
keyword; `final_mappings.get(keyword)` that is absent or `None` is falsy and
yields the `NO_MATCH` row. -/
def resultRow (store : Store) (keyword : String) : OutRow :=
  match store keyword with
    | some (some mapping) =>
      let url := if mapping.url = "" then "URL_ERROR" else mapping.url
      let score := mapping.score
      let quality :=
        if score ≥ 40 then "Excellent"
        else if score ≥ 25 then "Good"
        else if score ≥ 15 then "Fair"
        else "Weak"
      { keyword := keyword, matched_url := url, match_score := pyFormat2 score
      , page_title := pyTrunc 150 mapping.title
      , h1_heading := pyTrunc 100 mapping.h1
      , meta_description := pyTrunc 200 mapping.meta_description
      , match_quality := quality }
    | _ =>
      { keyword := keyword, matched_url := "NO_MATCH", match_score := "0.00"
      , page_title := "", h1_heading := "", meta_description := ""
      , match_quality := "None" }

/-- Model of `SimpleKeywordMapper.save_results` (lines 217-275): one output row
per input keyword, in input order. -/
def save_results (keywords : List String) (store : Store) : List OutRow :=
  keywords.map (resultRow store)

/-! Claim-side definitions: these follow the wording of the spec sentences the
claims quote, to be compared with the definitions embedded from the source. -/

/-- Per-field score as claim C2 words it: empty normalized text contributes 0,
otherwise `(matchCount / len(keywordWords)) * 10.0 * weight` where `matchCount`
counts keyword words (with multiplicity) occurring as raw substrings. -/
def claimFieldScore (kwWords : List String) (text : String) (weight : ℚ) : ℚ :=
  if text = "" then 0
  else ((kwWords.countP (fun w => pyIn w text) : ℚ) / (kwWords.length : ℚ)) * 10.0 * weight

/-- Total score as claim C2 words it: the sum over the six fields with weights
title 5.0, h1 4.0, url-components 3.0, meta-description 2.0, h2 1.5,
meta-keywords 2.5. -/
def claimTotalScore (keyword : String) (c : Content) : ℚ :=
  let kwWords := pySplit (normalize_text keyword)
  claimFieldScore kwWords c.title 5.0 + claimFieldScore kwWords c.h1 4.0 +
    claimFieldScore kwWords c.url_components 3.0 + claimFieldScore kwWords c.meta_desc 2.0 +
    claimFieldScore kwWords c.h2 1.5 + claimFieldScore kwWords c.meta_keywords 2.5

/-- Strip `pat` from the front of `s` only (used to state claim C5 literally). -/
def stripLeading (pat s : String) : String :=
  match matchAt pat.data s.data with
  | some rest => String.mk rest
  | none => s

/-- Host words as claim C5 states them: strip only a LEADING `"www."`, remove
all `".com"`, then replace remaining `"."` with spaces. -/
def claimHostWords (host : String) : String :=
  pyReplace (pyReplace (stripLeading "www." host) ".com" "") "." " "

/-- Path words as claim C5 states them: `/`, `-`, `_` replaced by spaces. -/
def claimPathWords (path : String) : String :=
  pyReplace (pyReplace (pyReplace path "/" " ") "-" " ") "_" " "

/-- The URL Decomposer as claim C5 states it (leading-only `www.` strip). -/
def claimUrlWords (url : String) : String :=
  if url = "" then ""
  else
    match pyUrlparse url with
    | none => ""
    | some (netloc, path) => normalize_text (claimHostWords netloc ++ " " ++ claimPathWords path)

/-- Host words as the amended claim C5 states them: ALL occurrences of the
`"www."` literal are removed, not only a leading one. -/
def amendedHostWords (host : String) : String :=
  pyReplace (pyReplace (pyReplace host "www." "") ".com" "") "." " "

/-- Match quality as claim C9 words it. -/
def qualitySpec (score : ℚ) : String :=
  if 40 ≤ score then "Excellent"
  else if 25 ≤ score then "Good"
  else if 15 ≤ score then "Fair"
  else "Weak"

/-- The output row claim C9 prescribes for a keyword given the Mapping Store. -/
def specRow (store : Store) (keyword : String) : OutRow :=
  match store keyword with
  | some (some m) =>
    { keyword := keyword
    , matched_url := if m.url = "" then "URL_ERROR" else m.url
    , match_score := pyFormat2 m.score
    , page_title := pyTrunc 150 m.title
    , h1_heading := pyTrunc 100 m.h1
    , meta_description := pyTrunc 200 m.meta_description
    , match_quality := qualitySpec m.score }
  | _ =>
    { keyword := keyword, matched_url := "NO_MATCH", match_score := "0.00"
    , page_title := "", h1_heading := "", meta_description := ""
    , match_quality := "None" }

/-! Theorems. -/

/-- Claim C1 (code bug evidence): with one keyword and an empty record list the
best-match pass leaves the Mapping Store without any entry for the keyword —
the keyword is skipped, because the threshold check of lines 207-212 is
indented inside the record loop and never runs when there are no records. The
claim (and spec §3/§8) requires exactly one MappingEntry per keyword for every,
possibly empty, record list. -/
theorem c1_store_skips_keyword_on_empty_records :
    find_best_matches ["red"] [] "red" = none := rfl

/-- Claim C7: `extract_url_components` never raises; empty input returns the
empty string, and any URL-parse failure returns the empty string. -/
theorem c7_extract_url_components_total (url : String) :
    (url = "" → extract_url_components url = "") ∧
    (pyUrlparse url = none → extract_url_components url = "") := by
  constructor
  · intro h
    rw [h]
    rfl
  · intro h
    unfold extract_url_components
    by_cases hu : url = ""
    · simp [hu]
    · simp [hu, h]

/-- Witness for C7: the empty URL and a malformed URL (unmatched `[` in the
host, the parse failure CPython raises `ValueError` for) both yield `""`. -/
theorem c7_witness :
    extract_url_components "" = "" ∧ extract_url_components "http://[abc/x" = "" :=
  ⟨(c7_extract_url_components_total "").1 rfl,
   (c7_extract_url_components_total "http://[abc/x").2 (by decide)⟩

/-- Counterexample to claim C5 as stated: the code removes every occurrence of
`"www."` from the host, not only a leading one. On `http://a.www.b.com/` the
code produces `"a b"` while the claim's leading-only strip produces
`"a www b"`. -/
theorem c5_counterexample :
    extract_url_components "http://a.www.b.com/" ≠ claimUrlWords "http://a.www.b.com/" := by
  decide

/-- Amended claim C5: for every URL that parses, the URL Decomposer removes ALL
occurrences of the `"www."` literal and of the `".com"` literal from the host,
replaces remaining `"."` in the host and `"/"`, `"-"`, `"_"` in the path with
spaces, and returns the normalization of host-words concatenated with
path-words. -/
theorem c5_amended_url_decomposition (url netloc path : String)
    (hne : url ≠ "") (hp : pyUrlparse url = some (netloc, path)) :
    extract_url_components url =
      normalize_text (amendedHostWords netloc ++ " " ++ claimPathWords path) := by
  unfold extract_url_components amendedHostWords claimPathWords
  rw [if_neg hne, hp]

/-- Witness for the amended C5 at a concrete URL. -/
theorem c5_amended_witness :
    extract_url_components "http://a.www.b.com/x-y" =
      normalize_text (amendedHostWords "a.www.b.com" ++ " " ++ claimPathWords "/x-y") :=
  c5_amended_url_decomposition "http://a.www.b.com/x-y" "a.www.b.com" "/x-y"
    (by decide) (by decide)

/-- Claim C9: the result CSV has one row per input keyword in original order;
unmatched keywords get `NO_MATCH`, score `0.00` and quality `None`; an accepted
match with empty URL gets `URL_ERROR`; quality is banded at 40/25/15; title,
h1 and meta description are truncated to 150, 100 and 200 characters. -/
theorem c9_save_results_rows (keywords : List String) (store : Store) :
    (save_results keywords store).length = keywords.length ∧
    ∀ i : ℕ, (save_results keywords store)[i]? = (keywords[i]?).map (specRow store) := by
  have hrow : resultRow store = specRow store := by
    funext kw
    unfold resultRow specRow
    cases store kw with
    | none => rfl
    | some m =>
      cases m with
      | none => rfl
      | some c => rfl
  constructor
  · simp [save_results]
  · intro i
    simp only [save_results, List.getElem?_map, hrow]

/-- One scoring-loop step adds exactly the claim-side per-field score. -/
theorem fieldStep_eq_add (kwWords : List String) (t : ℚ) (cw : String × ℚ) :
    fieldStep kwWords t cw = t + claimFieldScore kwWords cw.1 cw.2 := by
  unfold fieldStep claimFieldScore
  by_cases h : cw.1 = ""
  · simp [h]
  · rw [if_neg h, if_neg h, List.countP_eq_length_filter]
    by_cases hm : 0 < (kwWords.filter (fun w => pyIn w cw.1)).length
    · rw [if_pos hm]
    · rw [if_neg hm]
      have hz : (kwWords.filter (fun w => pyIn w cw.1)).length = 0 := by omega
      rw [hz]
      push_cast
      ring

/-- The scoring fold is the running sum of claim-side per-field scores. -/
theorem foldl_fieldStep (kwWords : List String) :
    ∀ (fields : List (String × ℚ)) (t : ℚ),
      fields.foldl (fieldStep kwWords) t =
        t + (fields.map (fun cw => claimFieldScore kwWords cw.1 cw.2)).sum := by
  intro fields
  induction fields with
  | nil => intro t; simp
  | cons cw rest ih =>
    intro t
    rw [List.foldl_cons, ih, fieldStep_eq_add, List.map_cons, List.sum_cons]
    ring

/-- Claim-side per-field scores are nonnegative and at most `10 * weight`. -/
theorem claimFieldScore_bounds (kwWords : List String) (text : String) (w : ℚ)
    (hw : 0 ≤ w) :
    0 ≤ claimFieldScore kwWords text w ∧ claimFieldScore kwWords text w ≤ 10 * w := by
  unfold claimFieldScore
  by_cases h : text = ""
  · rw [if_pos h]
    constructor
    · exact le_refl 0
    · nlinarith
  · rw [if_neg h]
    have hcount : (kwWords.countP (fun a => pyIn a text)) ≤ kwWords.length :=
      List.countP_le_length _
    have hfrac0 : 0 ≤ ((kwWords.countP (fun a => pyIn a text) : ℚ) / (kwWords.length : ℚ)) :=
      div_nonneg (by positivity) (by positivity)
    have hfrac1 : ((kwWords.countP (fun a => pyIn a text) : ℚ) / (kwWords.length : ℚ)) ≤ 1 := by
      rcases Nat.eq_zero_or_pos kwWords.length with hn | hn
      · have : kwWords.countP (fun a => pyIn a text) = 0 := by omega
        rw [this, hn]
        norm_num
      · rw [div_le_one (by exact_mod_cast hn)]
        exact_mod_cast hcount
    constructor
    · have := mul_nonneg (mul_nonneg hfrac0 (by norm_num : (0:ℚ) ≤ 10.0)) hw
      linarith
    · nlinarith

/-- The total match score is between 0 and 180 (helper shared by several
claims). -/
theorem score_bounds (keyword : String) (r : Record) :
    0 ≤ calculate_match_score keyword r ∧ calculate_match_score keyword r ≤ 180 := by
  unfold calculate_match_score
  by_cases h : pySplit (normalize_text keyword) = []
  · simp [h]
  · rw [if_neg h]
    cases r with
    | error e => simp [extract_content]
    | ok row =>
      simp only [extract_content]
      rw [foldl_fieldStep]
      set kw := pySplit (normalize_text keyword)
      set c := contentOf row
      have h1 := claimFieldScore_bounds kw c.title 5.0 (by norm_num)
      have h2 := claimFieldScore_bounds kw c.h1 4.0 (by norm_num)
      have h3 := claimFieldScore_bounds kw c.url_components 3.0 (by norm_num)
      have h4 := claimFieldScore_bounds kw c.meta_desc 2.0 (by norm_num)
      have h5 := claimFieldScore_bounds kw c.h2 1.5 (by norm_num)
      have h6 := claimFieldScore_bounds kw c.meta_keywords 2.5 (by norm_num)
      simp only [content_fields, List.map_cons, List.map_nil, List.sum_cons, List.sum_nil]
      constructor
      · have : (0:ℚ) ≤ 10 * 5.0 := by norm_num
        nlinarith [h1.1, h2.1, h3.1, h4.1, h5.1, h6.1]
      · nlinarith [h1.2, h2.2, h3.2, h4.2, h5.2, h6.2]

/-- Claim C2: for a keyword with a non-empty normalized form the total score of
a readable record is exactly the claim's formula value, and a keyword that
normalizes to no words scores 0. -/
theorem c2_score_formula (keyword : String) (row : Row) :
    (normalize_text keyword ≠ "" →
      calculate_match_score keyword (Except.ok row) = claimTotalScore keyword (contentOf row)) ∧
    (pySplit (normalize_text keyword) = [] →
      calculate_match_score keyword (Except.ok row) = 0) := by
  have hmain : calculate_match_score keyword (Except.ok row) =
      claimTotalScore keyword (contentOf row) := by
    unfold calculate_match_score claimTotalScore
    by_cases h : pySplit (normalize_text keyword) = []
    · rw [if_pos h]
      simp [h, claimFieldScore]
    · rw [if_neg h]
      simp only [extract_content]
      rw [foldl_fieldStep]
      simp only [content_fields, List.map_cons, List.map_nil, List.sum_cons, List.sum_nil]
      ring
  refine ⟨fun _ => hmain, fun h => ?_⟩
  unfold calculate_match_score
  rw [if_pos h]

/-- Witness for C2: the claim formula at a concrete keyword and row, and the
zero score of a keyword normalizing to no words. -/
theorem c2_witness :
    calculate_match_score "red shoes" (Except.ok [("Title 1", "Red Shoes Sale")]) =
      claimTotalScore "red shoes" (contentOf [("Title 1", "Red Shoes Sale")]) ∧
    calculate_match_score "!!!" (Except.ok [("Title 1", "Red Shoes Sale")]) = 0 :=
  ⟨(c2_score_formula "red shoes" [("Title 1", "Red Shoes Sale")]).1 (by decide),
   (c2_score_formula "!!!" [("Title 1", "Red Shoes Sale")]).2 (by decide)⟩

/-- Claim C10: the total match score of any keyword against any record is
bounded by 0 below and by 180 = 10 * (5 + 4 + 3 + 2 + 1.5 + 2.5) above. -/
theorem c10_score_bounded (keyword : String) (r : Record) :
    0 ≤ calculate_match_score keyword r ∧
    calculate_match_score keyword r ≤ 180 ∧
    (180 : ℚ) = 10 * (5.0 + 4.0 + 3.0 + 2.0 + 1.5 + 2.5) :=
  ⟨(score_bounds keyword r).1, (score_bounds keyword r).2, by norm_num⟩

/-! Lemmas about the record scan of `find_best_matches`. -/

theorem scanBest_nil (kw : String) (acc : ℚ × Option Candidate) :
    scanBest kw [] acc = acc := rfl

theorem scanBest_cons (kw : String) (r : Record) (rest : List Record)
    (acc : ℚ × Option Candidate) :
    scanBest kw (r :: rest) acc = scanBest kw rest (scoreStep kw acc r) := rfl

theorem bestFrom_ge (kw : String) :
    ∀ (records : List Record) (b : ℚ), b ≤ bestFrom kw b records := by
  intro records
  induction records with
  | nil => intro b; exact le_refl b
  | cons r rest ih =>
    intro b
    by_cases h : b < calculate_match_score kw r
    · calc b ≤ calculate_match_score kw r := le_of_lt h
        _ ≤ bestFrom kw (calculate_match_score kw r) rest := ih _
        _ = bestFrom kw b (r :: rest) := by simp [bestFrom, h]
    · calc b ≤ bestFrom kw b rest := ih b
        _ = bestFrom kw b (r :: rest) := by simp [bestFrom, h]

theorem le_bestFrom_of_mem (kw : String) :
    ∀ (records : List Record) (b : ℚ) (r : Record), r ∈ records →
      calculate_match_score kw r ≤ bestFrom kw b records := by
  intro records
  induction records with
  | nil => intro b r hr; cases hr
  | cons x rest ih =>
    intro b r hr
    rcases List.mem_cons.mp hr with h | h
    · subst h
      by_cases hx : b < calculate_match_score kw r
      · calc calculate_match_score kw r
            ≤ bestFrom kw (calculate_match_score kw r) rest := bestFrom_ge kw rest _
          _ = bestFrom kw b (r :: rest) := by simp [bestFrom, hx]
      · calc calculate_match_score kw r ≤ b := le_of_not_lt hx
          _ ≤ bestFrom kw b rest := bestFrom_ge kw rest b
          _ = bestFrom kw b (r :: rest) := by simp [bestFrom, hx]
    · by_cases hx : b < calculate_match_score kw x
      · calc calculate_match_score kw r
            ≤ bestFrom kw (calculate_match_score kw x) rest := ih _ r h
          _ = bestFrom kw b (x :: rest) := by simp [bestFrom, hx]
      · calc calculate_match_score kw r ≤ bestFrom kw b rest := ih b r h
          _ = bestFrom kw b (x :: rest) := by simp [bestFrom, hx]

theorem bestFrom_const (kw : String) :
    ∀ (records : List Record) (b : ℚ),
      (∀ r ∈ records, calculate_match_score kw r ≤ b) → bestFrom kw b records = b := by
  intro records
  induction records with
  | nil => intro b _; rfl
  | cons r rest ih =>
    intro b hall
    have hr : ¬ b < calculate_match_score kw r :=
      not_lt_of_le (hall r (List.mem_cons_self r rest))
    have : bestFrom kw b (r :: rest) = bestFrom kw b rest := by simp [bestFrom, hr]
    rw [this, ih b (fun x hx => hall x (List.mem_cons_of_mem r hx))]

theorem scanBest_const (kw : String) :
    ∀ (records : List Record) (b : ℚ) (bm : Option Candidate),
      (∀ r ∈ records, calculate_match_score kw r ≤ b) → scanBest kw records (b, bm) = (b, bm) := by
  intro records
  induction records with
  | nil => intro b bm _; rfl
  | cons r rest ih =>
    intro b bm hall
    have hr : ¬ b < calculate_match_score kw r :=
      not_lt_of_le (hall r (List.mem_cons_self r rest))
    rw [scanBest_cons]
    have hstep : scoreStep kw (b, bm) r = (b, bm) := by simp [scoreStep, hr]
    rw [hstep, ih b bm (fun x hx => hall x (List.mem_cons_of_mem r hx))]

theorem bestFrom_lt (kw : String) (records : List Record) (b : ℚ)
    (h : ∃ r ∈ records, b < calculate_match_score kw r) : b < bestFrom kw b records := by
  rcases h with ⟨r, hr, hb⟩
  exact lt_of_lt_of_le hb (le_bestFrom_of_mem kw records b r hr)

theorem bestFrom_attained (kw : String) :
    ∀ (records : List Record) (b : ℚ),
      (∃ r ∈ records, b < calculate_match_score kw r) →
      ∃ r ∈ records, bestFrom kw b records = calculate_match_score kw r := by
  intro records
  induction records with
  | nil => intro b h; rcases h with ⟨r, hr, _⟩; cases hr
  | cons r rest ih =>
    intro b hEx
    by_cases hbs : b < calculate_match_score kw r
    · have hbf : bestFrom kw b (r :: rest) = bestFrom kw (calculate_match_score kw r) rest := by
        simp [bestFrom, hbs]
      by_cases hRest : ∃ r2 ∈ rest, calculate_match_score kw r < calculate_match_score kw r2
      · rcases ih _ hRest with ⟨r2, hr2, heq⟩
        exact ⟨r2, List.mem_cons_of_mem r hr2, by rw [hbf, heq]⟩
      · push_neg at hRest
        refine ⟨r, List.mem_cons_self r rest, ?_⟩
        rw [hbf, bestFrom_const kw rest _ hRest]
    · have hbf : bestFrom kw b (r :: rest) = bestFrom kw b rest := by simp [bestFrom, hbs]
      have hEx2 : ∃ r2 ∈ rest, b < calculate_match_score kw r2 := by
        rcases hEx with ⟨r2, hr2, hb2⟩
        rcases List.mem_cons.mp hr2 with h | h
        · subst h; exact absurd hb2 hbs
        · exact ⟨r2, h, hb2⟩
      rcases ih b hEx2 with ⟨r2, hr2, heq⟩
      exact ⟨r2, List.mem_cons_of_mem r hr2, by rw [hbf, heq]⟩

theorem scanBest_fst (kw : String) :
    ∀ (records : List Record) (b : ℚ) (bm : Option Candidate),
      (scanBest kw records (b, bm)).1 = bestFrom kw b records := by
  intro records
  induction records with
  | nil => intro b bm; rfl
  | cons r rest ih =>
    intro b bm
    rw [scanBest_cons]
    by_cases h : b < calculate_match_score kw r
    · have hstep : scoreStep kw (b, bm) r =
          (calculate_match_score kw r, some (mkCandidate r (calculate_match_score kw r))) := by
        simp [scoreStep, h]
      rw [hstep, ih]
      simp [bestFrom, h]
    · have hstep : scoreStep kw (b, bm) r = (b, bm) := by simp [scoreStep, h]
      rw [hstep, ih]
      simp [bestFrom, h]

theorem find?_cons_true (p : Record → Bool) (r : Record) (rest : List Record)
    (h : p r = true) : (r :: rest).find? p = some r := by
  simp [List.find?, h]

theorem find?_cons_false (p : Record → Bool) (r : Record) (rest : List Record)
    (h : p r = false) : (r :: rest).find? p = rest.find? p := by
  simp [List.find?, h]

/-- The scan keeps the FIRST record attaining the running maximum: as soon as
some record strictly beats the initial best, the final `best_match` is the
candidate of the first record whose score equals the final maximum (the strict
`>` comparison of line 186 never lets a later equal-scoring record replace the
leader). -/
theorem scanBest_first_max (kw : String) :
    ∀ (records : List Record) (b : ℚ) (bm : Option Candidate),
      (∃ r ∈ records, b < calculate_match_score kw r) →
      scanBest kw records (b, bm) =
        (bestFrom kw b records,
         (records.find?
            (fun r => decide (calculate_match_score kw r = bestFrom kw b records))).map
           (fun r => mkCandidate r (calculate_match_score kw r))) := by
  intro records
  induction records with
  | nil => intro b bm h; rcases h with ⟨r, hr, _⟩; cases hr
  | cons r rest ih =>
    intro b bm hEx
    rw [scanBest_cons]
    by_cases hbs : b < calculate_match_score kw r
    · have hstep : scoreStep kw (b, bm) r =
          (calculate_match_score kw r, some (mkCandidate r (calculate_match_score kw r))) := by
        simp [scoreStep, hbs]
      have hbf : bestFrom kw b (r :: rest) = bestFrom kw (calculate_match_score kw r) rest := by
        simp [bestFrom, hbs]
      by_cases hRest : ∃ r2 ∈ rest, calculate_match_score kw r < calculate_match_score kw r2
      · have hM : calculate_match_score kw r < bestFrom kw (calculate_match_score kw r) rest :=
          bestFrom_lt kw rest _ hRest
        rw [hstep, ih _ _ hRest, hbf]
        have hpr : decide (calculate_match_score kw r =
            bestFrom kw (calculate_match_score kw r) rest) = false :=
          decide_eq_false (ne_of_lt hM)
        rw [find?_cons_false _ r rest hpr]
      · push_neg at hRest
        have hconst := scanBest_const kw rest (calculate_match_score kw r)
          (some (mkCandidate r (calculate_match_score kw r))) hRest
        have hbfc := bestFrom_const kw rest (calculate_match_score kw r) hRest
        rw [hstep, hconst, hbf, hbfc]
        have hpr : decide (calculate_match_score kw r = calculate_match_score kw r) = true := by
          simp
        rw [find?_cons_true _ r rest hpr]
        rfl
    · have hstep : scoreStep kw (b, bm) r = (b, bm) := by simp [scoreStep, hbs]
      have hbf : bestFrom kw b (r :: rest) = bestFrom kw b rest := by simp [bestFrom, hbs]
      have hEx2 : ∃ r2 ∈ rest, b < calculate_match_score kw r2 := by
        rcases hEx with ⟨r2, hr2, hb2⟩
        rcases List.mem_cons.mp hr2 with h | h
        · subst h; exact absurd hb2 hbs
        · exact ⟨r2, h, hb2⟩
      have hM : b < bestFrom kw b rest := bestFrom_lt kw rest b hEx2
      have hs : calculate_match_score kw r ≤ b := le_of_not_lt hbs
      rw [hstep, ih b bm hEx2, hbf]
      have hpr : decide (calculate_match_score kw r = bestFrom kw b rest) = false :=
        decide_eq_false (ne_of_lt (lt_of_le_of_lt hs hM))
      rw [find?_cons_false _ r rest hpr]

/-- A positive final best score is equivalent to `best_match` being set. -/
theorem bestMatch_isSome_iff (kw : String) (records : List Record) :
    (bestMatch kw records).isSome = true ↔ 0 < bestScore kw records := by
  unfold bestMatch bestScore
  rw [scanBest_fst]
  constructor
  · intro hsome
    by_contra hneg
    have hall : ∀ r ∈ records, calculate_match_score kw r ≤ 0 := by
      intro r hr
      by_contra hgt
      push_neg at hgt
      exact hneg (bestFrom_lt kw records 0 ⟨r, hr, hgt⟩)
    rw [scanBest_const kw records 0 none hall] at hsome
    simp at hsome
  · intro hpos
    have hEx : ∃ r ∈ records, 0 < calculate_match_score kw r := by
      by_contra hneg
      push_neg at hneg
      rw [bestFrom_const kw records 0 hneg] at hpos
      exact lt_irrefl 0 hpos
    rw [scanBest_first_max kw records 0 none hEx]
    rcases bestFrom_attained kw records 0 hEx with ⟨r, hr, heq⟩
    have hfind : ((records.find?
        (fun r => decide (calculate_match_score kw r = bestFrom kw 0 records))).isSome) = true := by
      rw [List.find?_isSome]
      exact ⟨r, hr, by simp [heq]⟩
    rw [Option.isSome_map']
    exact hfind

theorem storeSet_same (store : Store) (k : String) (v : Option Candidate) :
    storeSet store k v k = some v := by
  simp [storeSet]

theorem storeSet_other (store : Store) (k x : String) (v : Option Candidate)
    (h : x ≠ k) : storeSet store k v x = store x := by
  simp [storeSet, h]

theorem storeSet_storeSet (store : Store) (k : String) (v v2 : Option Candidate) :
    storeSet (storeSet store k v) k v2 = storeSet store k v2 := by
  funext x
  by_cases h : x = k
  · simp [storeSet, h]
  · simp [storeSet, h]

/-- The per-keyword loop computes the scan and, when at least one record was
processed, leaves the store with the keyword set to the threshold decision of
the final scan state (the repeated in-loop writes collapse to the last one). -/
theorem keywordLoop_spec (kw : String) :
    ∀ (records : List Record) (acc : ℚ × Option Candidate) (store : Store),
      keywordLoop kw records acc store =
        (scanBest kw records acc,
         if records = [] then store
         else storeSet store kw (thresholdDecision (scanBest kw records acc))) := by
  intro records
  induction records with
  | nil => intro acc store; simp [keywordLoop, scanBest_nil]
  | cons r rest ih =>
    intro acc store
    show keywordLoop kw rest (scoreStep kw acc r)
        (storeSet store kw (thresholdDecision (scoreStep kw acc r))) = _
    rw [ih]
    rw [scanBest_cons]
    by_cases h : rest = []
    · subst h
      simp [scanBest_nil]
    · rw [if_neg h, if_neg (by simp : (r :: rest) ≠ [])]
      rw [storeSet_storeSet]

/-- Keywords later in the list do not disturb the entry of a keyword that is
not among them. -/
theorem foldStore_preserve (records : List Record) :
    ∀ (keywords : List String) (store : Store) (kw : String), kw ∉ keywords →
      (keywords.foldl (fun store k => (keywordLoop k records (0, none) store).2) store) kw
        = store kw := by
  intro keywords
  induction keywords with
  | nil => intro store kw _; rfl
  | cons k rest ih =>
    intro store kw hmem
    have hk : kw ≠ k := fun h => hmem (h ▸ List.mem_cons_self k rest)
    have hrest : kw ∉ rest := fun h => hmem (List.mem_cons_of_mem k h)
    rw [List.foldl_cons, ih _ _ hrest, keywordLoop_spec]
    by_cases h : records = []
    · rw [if_pos h]
    · rw [if_neg h]
      exact storeSet_other _ _ _ _ hk

/-- With a non-empty record list, the final store entry of every processed
keyword is the threshold decision of its own scan. -/
theorem find_best_matches_entry (records : List Record) (hrec : records ≠ []) :
    ∀ (keywords : List String) (store : Store) (kw : String), kw ∈ keywords →
      (keywords.foldl (fun store k => (keywordLoop k records (0, none) store).2) store) kw
        = some (thresholdDecision (scanBest kw records (0, none))) := by
  intro keywords
  induction keywords with
  | nil => intro store kw h; cases h
  | cons k rest ih =>
    intro store kw hmem
    rw [List.foldl_cons]
    by_cases h : kw ∈ rest
    · exact ih _ kw h
    · have hk : kw = k := by
        rcases List.mem_cons.mp hmem with h2 | h2
        · exact h2
        · exact absurd h2 h
      subst hk
      rw [foldStore_preserve records rest _ kw h]
      rw [keywordLoop_spec, if_neg hrec]
      exact storeSet_same _ _ _

/-- Claim C3: with a non-empty record list, a processed keyword is accepted
with its best-scoring MatchCandidate exactly when the best score is strictly
positive and at least 5.0; a best score below 5.0 (including every score of an
all-zero scan) leaves the keyword Unmatched. A best score of exactly 5.0
satisfies the right-hand side, so it is accepted. -/
theorem c3_threshold_acceptance (keywords : List String) (records : List Record)
    (keyword : String) (hmem : keyword ∈ keywords) (hrec : records ≠ []) :
    ((find_best_matches keywords records keyword = some (bestMatch keyword records) ∧
        (bestMatch keyword records).isSome = true) ↔
      (0 < bestScore keyword records ∧ 5 ≤ bestScore keyword records)) ∧
    (bestScore keyword records < 5 →
      find_best_matches keywords records keyword = some none) := by
  have hentry : find_best_matches keywords records keyword
      = some (thresholdDecision (scanBest keyword records (0, none))) :=
    find_best_matches_entry records hrec keywords emptyStore keyword hmem
  have hdec : thresholdDecision (scanBest keyword records (0, none)) =
      if (bestMatch keyword records).isSome = true ∧ 5 ≤ bestScore keyword records
      then bestMatch keyword records else none := rfl
  rw [hdec] at hentry
  constructor
  · constructor
    · rintro ⟨hacc, hsome⟩
      have hpos : 0 < bestScore keyword records :=
        (bestMatch_isSome_iff keyword records).mp hsome
      refine ⟨hpos, ?_⟩
      by_contra hlt
      push_neg at hlt
      rw [if_neg (fun hc => absurd hc.2 (not_le_of_lt hlt))] at hentry
      rw [hentry] at hacc
      have hm : bestMatch keyword records = none := by
        injection hacc with h2
        exact h2.symm
      rw [hm] at hsome
      simp at hsome
    · rintro ⟨hpos, hthr⟩
      have hsome : (bestMatch keyword records).isSome = true :=
        (bestMatch_isSome_iff keyword records).mpr hpos
      rw [if_pos ⟨hsome, hthr⟩] at hentry
      exact ⟨hentry, hsome⟩
  · intro hlt
    rw [if_neg (fun hc => absurd hc.2 (not_le_of_lt hlt))] at hentry
    exact hentry

/-- Concrete evaluation: a 3-word keyword with one word matching only H2
scores exactly the 5.0 acceptance threshold. -/
theorem score_at_threshold :
    calculate_match_score "qq ww ee" (Except.ok [("H2-1", "qq")]) = 5 := by
  have hspl : pySplit (normalize_text "qq ww ee") = ["qq", "ww", "ee"] := rfl
  have hc : extract_content (Except.ok [("H2-1", "qq")]) =
      Except.ok { url := "", title := "", h1 := "", h2 := "qq", meta_desc := ""
                , meta_keywords := "", url_components := "" } := rfl
  have h1 : pyIn "qq" "qq" = true := rfl
  have h2 : pyIn "ww" "qq" = false := rfl
  have h3 : pyIn "ee" "qq" = false := rfl
  norm_num [calculate_match_score, hspl, hc, content_fields, fieldStep, List.filter, h1, h2, h3]
  rw [if_neg (by decide : ¬ ((["qq", "ww", "ee"] : List String) = [])),
    if_neg (by decide : ¬ (("qq" : String) = ""))]

/-- Concrete evaluation: a 4-word keyword with one word matching only H2
scores 3.75, strictly below the threshold. -/
theorem score_below_threshold :
    calculate_match_score "q1 q2 q3 q4" (Except.ok [("H2-1", "q1")]) = 15 / 4 := by
  have hspl : pySplit (normalize_text "q1 q2 q3 q4") = ["q1", "q2", "q3", "q4"] := rfl
  have hc : extract_content (Except.ok [("H2-1", "q1")]) =
      Except.ok { url := "", title := "", h1 := "", h2 := "q1", meta_desc := ""
                , meta_keywords := "", url_components := "" } := rfl
  have h1 : pyIn "q1" "q1" = true := rfl
  have h2 : pyIn "q2" "q1" = false := rfl
  have h3 : pyIn "q3" "q1" = false := rfl
  have h4 : pyIn "q4" "q1" = false := rfl
  norm_num [calculate_match_score, hspl, hc, content_fields, fieldStep, List.filter,
    h1, h2, h3, h4]
  rw [if_neg (by decide : ¬ ((["q1", "q2", "q3", "q4"] : List String) = [])),
    if_neg (by decide : ¬ (("q1" : String) = ""))]

theorem bestScore_at_threshold :
    bestScore "qq ww ee" [Except.ok [("H2-1", "qq")]] = 5 := by
  norm_num [bestScore, scanBest, scoreStep, score_at_threshold]

theorem bestScore_below_threshold :
    bestScore "q1 q2 q3 q4" [Except.ok [("H2-1", "q1")]] = 15 / 4 := by
  norm_num [bestScore, scanBest, scoreStep, score_below_threshold]

/-- Witness for C3: a record scoring exactly 5.0 is accepted (threshold
boundary), and a record scoring 3.75 leaves its keyword Unmatched. -/
theorem c3_witness :
    (find_best_matches ["qq ww ee"] [Except.ok [("H2-1", "qq")]] "qq ww ee"
        = some (bestMatch "qq ww ee" [Except.ok [("H2-1", "qq")]]) ∧
      (bestMatch "qq ww ee" [Except.ok [("H2-1", "qq")]]).isSome = true) ∧
    find_best_matches ["q1 q2 q3 q4"] [Except.ok [("H2-1", "q1")]] "q1 q2 q3 q4"
        = some none :=
  ⟨((c3_threshold_acceptance ["qq ww ee"] [Except.ok [("H2-1", "qq")]] "qq ww ee"
      (by decide) (by decide)).1).mpr
      (by rw [bestScore_at_threshold]; norm_num),
   (c3_threshold_acceptance ["q1 q2 q3 q4"] [Except.ok [("H2-1", "q1")]] "q1 q2 q3 q4"
      (by decide) (by decide)).2
      (by rw [bestScore_below_threshold]; norm_num)⟩

theorem bestFrom_le (kw : String) :
    ∀ (records : List Record) (b M0 : ℚ), b ≤ M0 →
      (∀ r ∈ records, calculate_match_score kw r ≤ M0) → bestFrom kw b records ≤ M0 := by
  intro records
  induction records with
  | nil => intro b M0 hb _; exact hb
  | cons r rest ih =>
    intro b M0 hb hall
    by_cases h : b < calculate_match_score kw r
    · have : bestFrom kw b (r :: rest) = bestFrom kw (calculate_match_score kw r) rest := by
        simp [bestFrom, h]
      rw [this]
      exact ih _ M0 (hall r (List.mem_cons_self r rest))
        (fun x hx => hall x (List.mem_cons_of_mem r hx))
    · have : bestFrom kw b (r :: rest) = bestFrom kw b rest := by simp [bestFrom, h]
      rw [this]
      exact ih b M0 hb (fun x hx => hall x (List.mem_cons_of_mem r hx))

/-- Claim C4: when a record list contains two records with equal maximal
(positive) score, the selected `best_match` is the candidate of the FIRST
record in iteration order attaining that maximal score — the strict `>`
comparison never lets the later equal-scoring record replace the leader — and
rerunning the selection on the same inputs yields the same selection. -/
theorem c4_first_of_equal_max_wins (keyword : String)
    (records l1 l2 l3 records2 : List Record) (r1 r2 : Record)
    (hsplit : records = l1 ++ r1 :: l2 ++ r2 :: l3)
    (_heq : calculate_match_score keyword r1 = calculate_match_score keyword r2)
    (hmax : ∀ r ∈ records, calculate_match_score keyword r ≤ calculate_match_score keyword r1)
    (hpos : 0 < calculate_match_score keyword r1)
    (hrerun : records2 = records) :
    bestMatch keyword records =
      (records.find?
        (fun r => decide (calculate_match_score keyword r = calculate_match_score keyword r1))).map
        (fun r => mkCandidate r (calculate_match_score keyword r)) ∧
    bestMatch keyword records2 = bestMatch keyword records := by
  have hr1 : r1 ∈ records := by
    rw [hsplit]
    simp
  have hEx : ∃ r ∈ records, (0 : ℚ) < calculate_match_score keyword r := ⟨r1, hr1, hpos⟩
  have hL := scanBest_first_max keyword records 0 none hEx
  have hM : bestFrom keyword 0 records = calculate_match_score keyword r1 :=
    le_antisymm (bestFrom_le keyword records 0 _ (le_of_lt hpos) hmax)
      (le_bestFrom_of_mem keyword records 0 r1 hr1)
  constructor
  · unfold bestMatch
    rw [hL, hM]
  · rw [hrerun]

/-- Concrete evaluation: keyword `red` against a row titled `red` scores 50. -/
theorem score_red_first :
    calculate_match_score "red" (Except.ok [("Title 1", "red")]) = 50 := by
  have hspl : pySplit (normalize_text "red") = ["red"] := rfl
  have hc : extract_content (Except.ok [("Title 1", "red")]) =
      Except.ok { url := "", title := "red", h1 := "", h2 := "", meta_desc := ""
                , meta_keywords := "", url_components := "" } := rfl
  have h1 : pyIn "red" "red" = true := rfl
  norm_num [calculate_match_score, hspl, hc, content_fields, fieldStep, List.filter, h1]
  decide

/-- Concrete evaluation: keyword `red` against a row titled `red x` also
scores 50 (an equal-scoring later record). -/
theorem score_red_second :
    calculate_match_score "red" (Except.ok [("Title 1", "red x")]) = 50 := by
  have hspl : pySplit (normalize_text "red") = ["red"] := rfl
  have hc : extract_content (Except.ok [("Title 1", "red x")]) =
      Except.ok { url := "", title := "red x", h1 := "", h2 := "", meta_desc := ""
                , meta_keywords := "", url_components := "" } := rfl
  have h1 : pyIn "red" "red x" = true := rfl
  norm_num [calculate_match_score, hspl, hc, content_fields, fieldStep, List.filter, h1]
  decide

/-- Witness for C4 at two concrete equal-scoring records. -/
theorem c4_witness :
    bestMatch "red" [Except.ok [("Title 1", "red")], Except.ok [("Title 1", "red x")]] =
      ([Except.ok [("Title 1", "red")], Except.ok [("Title 1", "red x")]].find?
        (fun r => decide (calculate_match_score "red" r =
          calculate_match_score "red" (Except.ok [("Title 1", "red")])))).map
        (fun r => mkCandidate r (calculate_match_score "red" r)) ∧
    bestMatch "red" [Except.ok [("Title 1", "red")], Except.ok [("Title 1", "red x")]] =
      bestMatch "red" [Except.ok [("Title 1", "red")], Except.ok [("Title 1", "red x")]] :=
  c4_first_of_equal_max_wins "red"
    [Except.ok [("Title 1", "red")], Except.ok [("Title 1", "red x")]]
    [] [] [] _ (Except.ok [("Title 1", "red")]) (Except.ok [("Title 1", "red x")])
    rfl
    (by rw [score_red_first, score_red_second])
    (by
      intro r hr
      rcases List.mem_cons.mp hr with h | h
      · subst h; exact le_refl _
      · rcases List.mem_cons.mp h with h2 | h2
        · subst h2
          rw [score_red_first, score_red_second]
        · cases h2)
    (by rw [score_red_first]; norm_num)
    rfl

/-- A record whose field extraction raises scores 0 for every keyword. -/
theorem error_record_scores_zero (kw msg : String) :
    calculate_match_score kw (Except.error msg) = 0 := by
  unfold calculate_match_score
  by_cases h : pySplit (normalize_text kw) = []
  · simp [h]
  · simp [h, extract_content]

/-- Claim C8: an exception during field extraction is caught: the raising
(keyword, record) pair scores 0, the keyword still receives its Mapping Store
entry, and the scan of the remaining records is exactly the scan with the
raising record removed — no keyword or record is dropped. -/
theorem c8_extraction_failure_absorbed (keywords : List String)
    (records l1 l2 : List Record) (keyword msg : String)
    (hmem : keyword ∈ keywords)
    (hsplit : records = l1 ++ Except.error msg :: l2) :
    calculate_match_score keyword (Except.error msg) = 0 ∧
    (find_best_matches keywords records keyword).isSome = true ∧
    scanBest keyword records (0, none) = scanBest keyword (l1 ++ l2) (0, none) := by
  refine ⟨error_record_scores_zero keyword msg, ?_, ?_⟩
  · have hrec : records ≠ [] := by
      rw [hsplit]
      simp
    have h2 : find_best_matches keywords records keyword
        = some (thresholdDecision (scanBest keyword records (0, none))) :=
      find_best_matches_entry records hrec keywords emptyStore keyword hmem
    rw [h2]
    rfl
  · rw [hsplit]
    show (l1 ++ Except.error msg :: l2).foldl (scoreStep keyword) (0, none)
        = (l1 ++ l2).foldl (scoreStep keyword) (0, none)
    rw [List.foldl_append, List.foldl_append, List.foldl_cons]
    have hbase : (0 : ℚ) ≤ (List.foldl (scoreStep keyword) ((0 : ℚ), (none : Option Candidate)) l1).1 := by
      have hfst := scanBest_fst keyword l1 0 none
      show (0 : ℚ) ≤ (scanBest keyword l1 (0, none)).1
      rw [hfst]
      exact bestFrom_ge keyword l1 0
    have hstep : scoreStep keyword
        (List.foldl (scoreStep keyword) ((0 : ℚ), (none : Option Candidate)) l1)
        (Except.error msg)
        = List.foldl (scoreStep keyword) ((0 : ℚ), (none : Option Candidate)) l1 := by
      simp only [scoreStep, error_record_scores_zero]
      rw [if_neg (not_lt_of_le hbase)]
    rw [hstep]

/-- Witness for C8 at a concrete raising record. -/
theorem c8_witness :
    calculate_match_score "k" (Except.error "bad") = 0 ∧
    (find_best_matches ["k"] [Except.error "bad"] "k").isSome = true ∧
    scanBest "k" [Except.error "bad"] (0, none) = scanBest "k" ([] : List Record) (0, none) :=
  c8_extraction_failure_absorbed ["k"] [Except.error "bad"] [] [] "k" "bad"
    (by decide) rfl

/-! Lemmas about normalization, leading to idempotence (claim C6). -/

theorem toLower_toLower (c : Char) : c.toLower.toLower = c.toLower := by
  by_cases h : 65 ≤ c.toNat ∧ c.toNat ≤ 90
  · have h1 : c.toLower = Char.ofNat (c.toNat + 32) := by
      simp only [Char.toLower]
      rw [if_pos ⟨h.1, h.2⟩]
    have hv : (c.toNat + 32).isValidChar := Or.inl (by omega)
    have hd : (Char.ofNat (c.toNat + 32)).toNat = c.toNat + 32 := by
      unfold Char.ofNat
      rw [dif_pos hv]
      rfl
    have h2 : (Char.ofNat (c.toNat + 32)).toLower = Char.ofNat (c.toNat + 32) := by
      simp only [Char.toLower, hd]
      rw [if_neg]
      omega
    rw [h1, h2]
  · have h1 : c.toLower = c := by
      simp only [Char.toLower]
      rw [if_neg]
      omega
    rw [h1, h1]

theorem space_not_word (c : Char) (h : isSpaceChar c = true) : isWordChar c = false := by
  simp only [isSpaceChar, Bool.or_eq_true, decide_eq_true_eq] at h
  rcases h with ((((h | h) | h) | h) | h) | h <;> subst h <;> decide

theorem subPunct_cases (c : Char) :
    subPunct c = ' ' ∨ (subPunct c = c ∧ (isWordChar c = true ∨ isSpaceChar c = true)) := by
  cases hwc : isWordChar c with
  | true =>
    right
    refine ⟨?_, Or.inl rfl⟩
    unfold subPunct
    rw [hwc]
    simp
  | false =>
    cases hsc : isSpaceChar c with
    | true =>
      right
      refine ⟨?_, Or.inr rfl⟩
      unfold subPunct
      rw [hwc, hsc]
      simp
    | false =>
      left
      unfold subPunct
      rw [hwc, hsc]
      simp

theorem map_id_on {f : Char → Char} :
    ∀ l : List Char, (∀ c ∈ l, f c = c) → l.map f = l := by
  intro l
  induction l with
  | nil => intro _; rfl
  | cons a t ih =>
    intro h
    rw [List.map_cons, h a (List.mem_cons_self a t), ih (fun c hc => h c (List.mem_cons_of_mem a hc))]

theorem chain'_of_all_false (p : Char → Bool) :
    ∀ l : List Char, (∀ c ∈ l, p c = false) →
      List.Chain' (fun a b => (p a && p b) = false) l := by
  intro l
  induction l with
  | nil => intro _; simp
  | cons a t ih =>
    intro h
    cases t with
    | nil => simp
    | cons b u =>
      rw [List.chain'_cons]
      exact ⟨by rw [h a (List.mem_cons_self a _)]; simp,
        ih (fun c hc => h c (List.mem_cons_of_mem a hc))⟩

theorem collapseRuns_id (p : Char → Bool) :
    ∀ l : List Char, (∀ c ∈ l, p c = true → c = ' ') →
      List.Chain' (fun a b => (p a && p b) = false) l → collapseRuns p l = l := by
  intro l
  induction l with
  | nil => intro _ _; rfl
  | cons c tail ih =>
    intro h1 h2
    cases tail with
    | nil =>
      cases hc : p c with
      | true => simp [collapseRuns, hc, h1 c (List.mem_cons_self c []) hc]
      | false => simp [collapseRuns, hc]
    | cons d cs =>
      have hch := List.chain'_cons.mp h2
      have ihd := ih (fun x hx hpx => h1 x (List.mem_cons_of_mem c hx) hpx) hch.2
      cases hc : p c with
      | true =>
        have hd : p d = false := by
          rcases Bool.and_eq_false_iff.mp hch.1 with h | h
          · rw [hc] at h
            cases h
          · exact h
        simp only [collapseRuns, hc, hd]
        simp [ihd, h1 c (List.mem_cons_self c _) hc]
      | false =>
        simp [collapseRuns, hc, ihd]

theorem collapseRuns_mem (p : Char → Bool) :
    ∀ l : List Char, ∀ c ∈ collapseRuns p l, c = ' ' ∨ (c ∈ l ∧ p c = false) := by
  intro l
  induction l with
  | nil => intro c hc; simp [collapseRuns] at hc
  | cons a tail ih =>
    cases tail with
    | nil =>
      intro c hc
      cases ha : p a with
      | true =>
        simp [collapseRuns, ha] at hc
        exact Or.inl hc
      | false =>
        simp [collapseRuns, ha] at hc
        exact Or.inr ⟨by simp [hc], by rw [hc]; exact ha⟩
    | cons d cs =>
      intro c hc
      cases ha : p a with
      | true =>
        cases hd : p d with
        | true =>
          simp only [collapseRuns, ha, hd] at hc
          simp at hc
          rcases ih c hc with h | h
          · exact Or.inl h
          · exact Or.inr ⟨List.mem_cons_of_mem a h.1, h.2⟩
        | false =>
          simp only [collapseRuns, ha, hd] at hc
          simp at hc
          rcases hc with h | h
          · exact Or.inl h
          · rcases ih c h with h2 | h2
            · exact Or.inl h2
            · exact Or.inr ⟨List.mem_cons_of_mem a h2.1, h2.2⟩
      | false =>
        simp only [collapseRuns, ha] at hc
        simp at hc
        rcases hc with h | h
        · exact Or.inr ⟨by rw [h]; exact List.mem_cons_self a _, by rw [h]; exact ha⟩
        · rcases ih c h with h2 | h2
          · exact Or.inl h2
          · exact Or.inr ⟨List.mem_cons_of_mem a h2.1, h2.2⟩

theorem collapseRuns_head (p : Char → Bool) :
    ∀ (cs : List Char) (d : Char),
      ∃ t, collapseRuns p (d :: cs) = (if p d then ' ' else d) :: t := by
  intro cs
  induction cs with
  | nil =>
    intro d
    refine ⟨[], ?_⟩
    cases hd : p d <;> simp [collapseRuns, hd]
  | cons e cs ih =>
    intro d
    cases hd : p d with
    | true =>
      cases he : p e with
      | true =>
        rcases ih e with ⟨t, ht⟩
        rw [he] at ht
        simp at ht
        exact ⟨t, by simp [collapseRuns, hd, he, ht]⟩
      | false =>
        exact ⟨collapseRuns p (e :: cs), by simp [collapseRuns, hd, he]⟩
    | false =>
      exact ⟨collapseRuns p (e :: cs), by simp [collapseRuns, hd]⟩

theorem collapseRuns_ne_nil (p : Char → Bool) :
    ∀ l : List Char, l ≠ [] → collapseRuns p l ≠ [] := by
  intro l
  induction l with
  | nil => intro h; exact absurd rfl h
  | cons c tail ih =>
    intro _
    cases tail with
    | nil => cases hc : p c <;> simp [collapseRuns, hc]
    | cons d cs =>
      cases hc : p c with
      | false => simp [collapseRuns, hc]
      | true =>
        cases hd : p d with
        | false => simp [collapseRuns, hc, hd]
        | true =>
          have := ih (List.cons_ne_nil d cs)
          simpa [collapseRuns, hc, hd] using this

theorem collapseRuns_chain (p : Char → Bool) :
    ∀ l : List Char,
      List.Chain' (fun a b => (p a && p b) = false) (collapseRuns p l) := by
  intro l
  induction l with
  | nil => simp [collapseRuns]
  | cons c tail ih =>
    cases tail with
    | nil => cases hc : p c <;> simp [collapseRuns, hc]
    | cons d cs =>
      cases hc : p c with
      | false =>
        rcases collapseRuns_head p cs d with ⟨t, ht⟩
        have hout : collapseRuns p (c :: d :: cs) = c :: collapseRuns p (d :: cs) := by
          simp [collapseRuns, hc]
        rw [hout, ht, List.chain'_cons]
        refine ⟨by rw [hc]; simp, ?_⟩
        rw [← ht]
        exact ih
      | true =>
        cases hd : p d with
        | true =>
          have hout : collapseRuns p (c :: d :: cs) = collapseRuns p (d :: cs) := by
            simp [collapseRuns, hc, hd]
          rw [hout]
          exact ih
        | false =>
          rcases collapseRuns_head p cs d with ⟨t, ht⟩
          rw [hd] at ht
          simp at ht
          have hout : collapseRuns p (c :: d :: cs) = ' ' :: collapseRuns p (d :: cs) := by
            simp [collapseRuns, hc, hd]
          rw [hout, ht, List.chain'_cons]
          refine ⟨by rw [hd]; simp, ?_⟩
          rw [← ht]
          exact ih

theorem collapseRuns_last (p : Char → Bool) :
    ∀ l : List Char, (∀ c, l.getLast? = some c → p c = false) →
      ∀ c, (collapseRuns p l).getLast? = some c → p c = false := by
  intro l
  induction l with
  | nil =>
    intro _ c hc
    simp [collapseRuns] at hc
  | cons a tail ih =>
    cases tail with
    | nil =>
      intro h c hc
      cases ha : p a with
      | true =>
        have := h a (by simp)
        rw [ha] at this
        cases this
      | false =>
        have hca : c = a := by
          have hout : collapseRuns p [a] = [a] := by simp [collapseRuns, ha]
          rw [hout] at hc
          simp at hc
          rw [hc]
        rw [hca]
        exact ha
    | cons d cs =>
      intro h c hc
      have htail : ∀ x, (d :: cs).getLast? = some x → p x = false := by
        intro x hx
        apply h
        rw [List.getLast?_cons_cons]
        exact hx
      cases ha : p a with
      | false =>
        rcases collapseRuns_head p cs d with ⟨t, ht⟩
        have hout : collapseRuns p (a :: d :: cs) = a :: collapseRuns p (d :: cs) := by
          simp [collapseRuns, ha]
        rw [hout, ht, List.getLast?_cons_cons] at hc
        apply ih htail
        rw [ht]
        exact hc
      | true =>
        cases hd : p d with
        | true =>
          have hout : collapseRuns p (a :: d :: cs) = collapseRuns p (d :: cs) := by
            simp [collapseRuns, ha, hd]
          rw [hout] at hc
          exact ih htail c hc
        | false =>
          rcases collapseRuns_head p cs d with ⟨t, ht⟩
          rw [hd] at ht
          simp at ht
          have hout : collapseRuns p (a :: d :: cs) = ' ' :: collapseRuns p (d :: cs) := by
            simp [collapseRuns, ha, hd]
          rw [hout, ht, List.getLast?_cons_cons] at hc
          apply ih htail
          rw [ht]
          exact hc

theorem dropWhile_head_false (p : Char → Bool) :
    ∀ l : List Char, ∀ c, (l.dropWhile p).head? = some c → p c = false := by
  intro l
  induction l with
  | nil => intro c hc; simp [List.dropWhile] at hc
  | cons a tail ih =>
    intro c hc
    cases ha : p a with
    | true =>
      rw [List.dropWhile_cons] at hc
      rw [ha] at hc
      simp at hc
      exact ih c hc
    | false =>
      rw [List.dropWhile_cons] at hc
      rw [ha] at hc
      simp at hc
      rw [← hc]
      exact ha

theorem stripEnd_append (l : List Char) : ∃ t, l = stripEnd l ++ t := by
  refine ⟨(l.reverse.takeWhile isSpaceChar).reverse, ?_⟩
  unfold stripEnd
  rw [← List.reverse_append, List.takeWhile_append_dropWhile, List.reverse_reverse]

theorem stripWs_subset (l : List Char) : ∀ c ∈ stripWs l, c ∈ l := by
  intro c hc
  rcases stripEnd_append (l.dropWhile isSpaceChar) with ⟨t, ht⟩
  have h1 : c ∈ l.dropWhile isSpaceChar := by
    rw [ht]
    exact List.mem_append_left t hc
  have h2 : l = l.takeWhile isSpaceChar ++ l.dropWhile isSpaceChar :=
    (List.takeWhile_append_dropWhile isSpaceChar l).symm
  rw [h2]
  exact List.mem_append_right _ h1

theorem stripWs_head_false (l : List Char) :
    ∀ c, (stripWs l).head? = some c → isSpaceChar c = false := by
  intro c hc
  rcases stripEnd_append (l.dropWhile isSpaceChar) with ⟨t, ht⟩
  cases se : stripEnd (l.dropWhile isSpaceChar) with
  | nil =>
    unfold stripWs at hc
    rw [se] at hc
    simp at hc
  | cons x xs =>
    unfold stripWs at hc
    rw [se] at hc
    simp at hc
    rw [se] at ht
    have hx : (l.dropWhile isSpaceChar).head? = some x := by
      rw [ht]
      rfl
    have := dropWhile_head_false isSpaceChar l x hx
    rw [← hc]
    exact this

theorem stripWs_last_false (l : List Char) :
    ∀ c, (stripWs l).getLast? = some c → isSpaceChar c = false := by
  intro c hc
  unfold stripWs stripEnd at hc
  rw [List.getLast?_eq_head?_reverse, List.reverse_reverse] at hc
  exact dropWhile_head_false isSpaceChar _ c hc

theorem stripWs_id (l : List Char)
    (hh : ∀ c, l.head? = some c → isSpaceChar c = false)
    (hl : ∀ c, l.getLast? = some c → isSpaceChar c = false) : stripWs l = l := by
  have h1 : l.dropWhile isSpaceChar = l := by
    cases l with
    | nil => rfl
    | cons a t =>
      rw [List.dropWhile_cons, hh a rfl]
      simp
  unfold stripWs stripEnd
  rw [h1]
  have h2 : l.reverse.dropWhile isSpaceChar = l.reverse := by
    cases hr : l.reverse with
    | nil => rfl
    | cons a t =>
      have ha : l.getLast? = some a := by
        rw [List.getLast?_eq_head?_reverse, hr]
        rfl
      rw [List.dropWhile_cons, hl a ha]
      simp
  rw [h2, List.reverse_reverse]

theorem normalize_text_data (x : String) (hx : x ≠ "") :
    (normalize_text x).data =
      collapseRuns isSpaceChar
        (stripWs ((collapseRuns isSep (x.data.map Char.toLower)).map subPunct)) := by
  unfold normalize_text
  rw [if_neg hx]

/-- The output of `normalize_text` is in normal form: lowercase-stable
characters, no separator characters, only word characters and single spaces,
no two adjacent whitespace characters, and no leading or trailing
whitespace. -/
theorem normalized_inv (x : String) (hx : normalize_text x ≠ "") :
    (∀ c ∈ (normalize_text x).data, Char.toLower c = c) ∧
    (∀ c ∈ (normalize_text x).data, isSep c = false) ∧
    (∀ c ∈ (normalize_text x).data, isWordChar c = true ∨ c = ' ') ∧
    List.Chain' (fun a b => (isSpaceChar a && isSpaceChar b) = false) (normalize_text x).data ∧
    (∀ c, (normalize_text x).data.head? = some c → isSpaceChar c = false) ∧
    (∀ c, (normalize_text x).data.getLast? = some c → isSpaceChar c = false) := by
  by_cases hxe : x = ""
  · subst hxe
    simp [normalize_text] at hx
  · rw [normalize_text_data x hxe]
    have hb_mem : ∀ c ∈ collapseRuns isSep (x.data.map Char.toLower),
        c = ' ' ∨ (c ∈ x.data.map Char.toLower ∧ isSep c = false) :=
      collapseRuns_mem isSep (x.data.map Char.toLower)
    have hm_mem : ∀ c ∈ (collapseRuns isSep (x.data.map Char.toLower)).map subPunct,
        c = ' ' ∨ (c ∈ collapseRuns isSep (x.data.map Char.toLower) ∧
          (isWordChar c = true ∨ isSpaceChar c = true)) := by
      intro c hc
      rcases List.mem_map.mp hc with ⟨y, hy, hyc⟩
      rcases subPunct_cases y with h | ⟨h1, h2⟩
      · left
        rw [← hyc, h]
      · right
        rw [← hyc, h1]
        exact ⟨hy, h2⟩
    have hd_mem : ∀ c ∈ stripWs ((collapseRuns isSep (x.data.map Char.toLower)).map subPunct),
        c ∈ (collapseRuns isSep (x.data.map Char.toLower)).map subPunct :=
      stripWs_subset _
    have hout_mem : ∀ c ∈ collapseRuns isSpaceChar
        (stripWs ((collapseRuns isSep (x.data.map Char.toLower)).map subPunct)),
        c = ' ' ∨ (c ∈ stripWs ((collapseRuns isSep (x.data.map Char.toLower)).map subPunct) ∧
          isSpaceChar c = false) :=
      collapseRuns_mem isSpaceChar _
    refine ⟨?_, ?_, ?_, ?_, ?_, ?_⟩
    · -- every character is stable under toLower
      intro c hc
      rcases hout_mem c hc with h | ⟨h, _⟩
      · rw [h]; rfl
      · rcases hm_mem c (hd_mem c h) with h2 | ⟨h2, _⟩
        · rw [h2]; rfl
        · rcases hb_mem c h2 with h3 | ⟨h3, _⟩
          · rw [h3]; rfl
          · rcases List.mem_map.mp h3 with ⟨z, _, hz⟩
            rw [← hz]
            exact toLower_toLower z
    · -- no separator characters remain
      intro c hc
      rcases hout_mem c hc with h | ⟨h, _⟩
      · rw [h]; rfl
      · rcases hm_mem c (hd_mem c h) with h2 | ⟨h2, _⟩
        · rw [h2]; rfl
        · rcases hb_mem c h2 with h3 | ⟨_, h4⟩
          · rw [h3]; rfl
          · exact h4
    · -- only word characters and spaces
      intro c hc
      rcases hout_mem c hc with h | ⟨h, hns⟩
      · right; exact h
      · rcases hm_mem c (hd_mem c h) with h2 | ⟨_, h3⟩
        · right; exact h2
        · rcases h3 with h4 | h4
          · left; exact h4
          · rw [h4] at hns; cases hns
    · -- no two adjacent whitespace characters
      exact collapseRuns_chain isSpaceChar _
    · -- no leading whitespace
      cases hd : stripWs ((collapseRuns isSep (x.data.map Char.toLower)).map subPunct) with
      | nil =>
        intro c hc
        simp [collapseRuns] at hc
      | cons e es =>
        intro c hc
        rcases collapseRuns_head isSpaceChar es e with ⟨t, ht⟩
        have he : isSpaceChar e = false := by
          apply stripWs_head_false ((collapseRuns isSep (x.data.map Char.toLower)).map subPunct)
          rw [hd]
          rfl
        rw [ht, he] at hc
        simp at hc
        rw [← hc]
        exact he
    · -- no trailing whitespace
      exact collapseRuns_last isSpaceChar _ (stripWs_last_false _)

/-- `normalize_text` fixes every string in normal form. -/
theorem normalize_text_fixpoint (t : String) (ht : t ≠ "")
    (h1 : ∀ c ∈ t.data, Char.toLower c = c)
    (h2 : ∀ c ∈ t.data, isSep c = false)
    (h3 : ∀ c ∈ t.data, isWordChar c = true ∨ c = ' ')
    (h4 : List.Chain' (fun a b => (isSpaceChar a && isSpaceChar b) = false) t.data)
    (h5 : ∀ c, t.data.head? = some c → isSpaceChar c = false)
    (h6 : ∀ c, t.data.getLast? = some c → isSpaceChar c = false) :
    normalize_text t = t := by
  have hshape : normalize_text t = String.mk (collapseRuns isSpaceChar
      (stripWs ((collapseRuns isSep (t.data.map Char.toLower)).map subPunct))) := by
    unfold normalize_text
    rw [if_neg ht]
  rw [hshape]
  rw [map_id_on t.data h1]
  have e2 : collapseRuns isSep t.data = t.data :=
    collapseRuns_id isSep t.data
      (fun c hc hp => by rw [h2 c hc] at hp; cases hp)
      (chain'_of_all_false isSep t.data h2)
  rw [e2]
  have e3 : t.data.map subPunct = t.data := by
    apply map_id_on
    intro c hc
    rcases h3 c hc with hw | hsp
    · unfold subPunct
      rw [hw]
      simp
    · rw [hsp]
      rfl
  rw [e3]
  rw [stripWs_id t.data h5 h6]
  have e5 : collapseRuns isSpaceChar t.data = t.data :=
    collapseRuns_id isSpaceChar t.data
      (fun c hc hp => by
        rcases h3 c hc with hw | hsp
        · have hnw := space_not_word c hp
          rw [hw] at hnw
          cases hnw
        · exact hsp)
      h4
  rw [e5]

/-- Claim C6: `normalize_text` is idempotent (it is deterministic because it is
a pure function of its input), and it maps empty input to empty output. -/
theorem c6_normalize_idempotent (x : String) :
    normalize_text (normalize_text x) = normalize_text x ∧ normalize_text "" = "" := by
  refine ⟨?_, rfl⟩
  by_cases h : normalize_text x = ""
  · rw [h]
    rfl
  · rcases normalized_inv x h with ⟨h1, h2, h3, h4, h5, h6⟩
    exact normalize_text_fixpoint (normalize_text x) h h1 h2 h3 h4 h5 h6

end KeywordMapper
